import Mathlib

/- Verification of the tiled Mandelbrot renderer in
   termux_friendly_mandelbrot.py: the per-point escape-time loop of
   mandelbrot_tile, the tile partitioning and coordinate mapping of
   render_mandelbrot_tiled, and the log-normalization post-processing step.
   Machine doubles are modelled by exact rationals; np.log is modelled by the
   real-valued logarithm (Real.log). -/

/-- Escape-time loop of `mandelbrot_tile` for one point `c = cr + ci*i`:
from orbit state `(zr, zi)` at iteration index `k`, with `fuel` loop
iterations remaining out of `m = max_iter`, return the recorded divergence
count.  Mirrors the Python
`for k in range(max_iter): zr2 = zr*zr; zi2 = zi*zi;
 if zr2 + zi2 > 4.0: divtime = k; break
 zi = 2*zr*zi + ci; zr = zr2 - zi2 + cr
 else: divtime = max_iter - 1`. -/
def mandelGo (cr ci : ℚ) (m : ℕ) : ℚ → ℚ → ℕ → ℕ → ℤ
  | _, _, _, 0 => (m : ℤ) - 1
  | zr, zi, k, fuel + 1 =>
    let zr2 := zr * zr
    let zi2 := zi * zi
    if zr2 + zi2 > 4 then (k : ℤ)
    else mandelGo cr ci m (zr2 - zi2 + cr) (2 * zr * zi + ci) (k + 1) fuel

/-- Divergence count recorded by `mandelbrot_tile` for the point
`c = cr + ci*i` with iteration cap `m`: the loop starts at `zr = zi = 0`,
`k = 0`, with `m` iterations of fuel. -/
def mandelbrotPoint (cr ci : ℚ) (m : ℕ) : ℤ := mandelGo cr ci m 0 0 0 m

/-- One step of the quadratic recurrence `z ← z² + c` on real pairs,
as the spec describes it: `(zr, zi) ← (zr² − zi² + cr, 2·zr·zi + ci)`. -/
def zStep (cr ci : ℚ) (z : ℚ × ℚ) : ℚ × ℚ :=
  (z.1 * z.1 - z.2 * z.2 + cr, 2 * z.1 * z.2 + ci)

/-- The orbit of `0` under `z ← z² + c`, as the spec describes it:
`orbit 0 = 0` and `orbit (n+1) = zStep (orbit n)`. -/
def orbit (cr ci : ℚ) : ℕ → ℚ × ℚ
  | 0 => (0, 0)
  | n + 1 => zStep cr ci (orbit cr ci n)

/-- Whether the orbit point at index `n` satisfies the spec's escape
condition `zr² + zi² > 4.0` (squared radius 2). -/
def escapedAt (cr ci : ℚ) (n : ℕ) : Bool :=
  decide ((orbit cr ci n).1 * (orbit cr ci n).1 +
    (orbit cr ci n).2 * (orbit cr ci n).2 > 4)

/-- Escape-time count written from the spec's words rather than the code:
the first index `k < m` at which the orbit of `0` under `z ← z² + c`
satisfies `zr² + zi² > 4`, and `m − 1` if no such index exists. -/
def specEscapeCount (cr ci : ℚ) (m : ℕ) : ℤ :=
  match (List.range m).find? (escapedAt cr ci) with
  | some k => (k : ℤ)
  | none => (m : ℤ) - 1

lemma mandelGo_eq_find (cr ci : ℚ) (m : ℕ) :
    ∀ (fuel k : ℕ),
      mandelGo cr ci m (orbit cr ci k).1 (orbit cr ci k).2 k fuel =
        (match (List.range' k fuel).find? (escapedAt cr ci) with
          | some n => (n : ℤ)
          | none => (m : ℤ) - 1) := by
  intro fuel
  induction fuel with
  | zero =>
    intro k
    simp [mandelGo]
  | succ fuel ih =>
    intro k
    rw [List.range'_succ k fuel 1]
    by_cases hesc : escapedAt cr ci k = true
    · have hgt : (orbit cr ci k).1 * (orbit cr ci k).1 +
          (orbit cr ci k).2 * (orbit cr ci k).2 > 4 := by
        simpa [escapedAt] using hesc
      simp [mandelGo, hgt, List.find?_cons, hesc]
    · have hng : ¬ ((orbit cr ci k).1 * (orbit cr ci k).1 +
          (orbit cr ci k).2 * (orbit cr ci k).2 > 4) := by
        simpa [escapedAt] using hesc
      have hstep : mandelGo cr ci m (orbit cr ci k).1 (orbit cr ci k).2 k
            (fuel + 1) =
          mandelGo cr ci m (orbit cr ci (k + 1)).1 (orbit cr ci (k + 1)).2
            (k + 1) fuel := by
        simp [mandelGo, hng, orbit, zStep]
      rw [hstep, ih (k + 1)]
      simp [List.find?_cons, hesc]

/-- Claim C1: for every point `(cr, ci)` and every iteration cap, the
escape-time evaluator `mandelbrot_tile` computes exactly the count described
by the spec's recurrence: the first `k < max_iter` at which the orbit of `0`
under `z ← z² + c` has `zr² + zi² > 4`, and `max_iter − 1` when no iteration
escapes. -/
theorem C1_evaluator_follows_spec_recurrence (cr ci : ℚ) (m : ℕ) :
    mandelbrotPoint cr ci m = specEscapeCount cr ci m := by
  have h := mandelGo_eq_find cr ci m m 0
  rw [mandelbrotPoint, specEscapeCount, List.range_eq_range' m]
  simpa [orbit] using h

lemma mandelGo_range (cr ci : ℚ) (m : ℕ) :
    ∀ (fuel : ℕ) (zr zi : ℚ) (k : ℕ),
      mandelGo cr ci m zr zi k fuel = (m : ℤ) - 1 ∨
        ((k : ℤ) ≤ mandelGo cr ci m zr zi k fuel ∧
          mandelGo cr ci m zr zi k fuel < (k : ℤ) + fuel) := by
  intro fuel
  induction fuel with
  | zero =>
    intro zr zi k
    left
    simp [mandelGo]
  | succ fuel ih =>
    intro zr zi k
    by_cases h : zr * zr + zi * zi > 4
    · right
      have hv : mandelGo cr ci m zr zi k (fuel + 1) = (k : ℤ) := by
        simp [mandelGo, h]
      rw [hv]
      constructor
      · exact le_refl _
      · push_cast
        omega
    · have hv : mandelGo cr ci m zr zi k (fuel + 1) =
          mandelGo cr ci m (zr * zr - zi * zi + cr) (2 * zr * zi + ci)
            (k + 1) fuel := by
        simp [mandelGo, h]
      rw [hv]
      rcases ih (zr * zr - zi * zi + cr) (2 * zr * zi + ci) (k + 1) with
        h1 | ⟨h2, h3⟩
      · left
        exact h1
      · right
        constructor
        · refine le_trans ?_ h2
          push_cast
          omega
        · refine lt_of_lt_of_le h3 ?_
          push_cast
          omega

lemma mandelbrotPoint_bounds (cr ci : ℚ) (m : ℕ) (hm : 1 ≤ m) :
    0 ≤ mandelbrotPoint cr ci m ∧ mandelbrotPoint cr ci m ≤ (m : ℤ) - 1 := by
  rcases mandelGo_range cr ci m m 0 0 0 with h | ⟨h1, h2⟩
  · rw [mandelbrotPoint, h]
    omega
  · rw [mandelbrotPoint]
    constructor
    · exact_mod_cast h1
    · have : mandelGo cr ci m 0 0 0 m < (m : ℤ) := by
        simpa using h2
      omega

/-- Claim C2 counterexample: at `c = 5 + 5i` (so `|c|² = 50 > 4`) with
`max_iter = 2`, the recorded divergence count is `1`, not `0`: the escape
test runs before the first orbit update, while `z` is still `0`, so the
escape is only detected at `k = 1`. -/
theorem C2_counterexample :
    mandelbrotPoint 5 5 2 = 1 ∧ mandelbrotPoint 5 5 2 ≠ 0 := by
  constructor
  · norm_num [mandelbrotPoint, mandelGo]
  · norm_num [mandelbrotPoint, mandelGo]

/-- Claim C2, amended: for every point with `cr² + ci² > 4` (so `|c| > 2`),
the recorded divergence count is `1` whenever `max_iter ≥ 2` (the escape test
precedes the first orbit update, so escape is detected one iteration after
`z` becomes `c`), and it is `0` when `max_iter = 1` (the single allowed
iteration sees `z = 0`, never escapes, and the for-else branch records
`max_iter − 1 = 0`). -/
theorem C2_amended_first_escape (cr ci : ℚ) (m : ℕ)
    (hc : cr * cr + ci * ci > 4) :
    (2 ≤ m → mandelbrotPoint cr ci m = 1) ∧
      (m = 1 → mandelbrotPoint cr ci m = 0) := by
  constructor
  · intro hm
    obtain ⟨fuel, rfl⟩ : ∃ fuel, m = fuel + 2 := ⟨m - 2, by omega⟩
    have h0 : ¬ ((0 : ℚ) * 0 + 0 * 0 > 4) := by norm_num
    have step1 : mandelbrotPoint cr ci (fuel + 2) =
        mandelGo cr ci (fuel + 2) (0 * 0 - 0 * 0 + cr) (2 * 0 * 0 + ci) 1
          (fuel + 1) := by
      rw [mandelbrotPoint]
      simp [mandelGo, h0]
    rw [step1]
    simp [mandelGo, hc]
  · intro hm
    subst hm
    norm_num [mandelbrotPoint, mandelGo]

/-- Claim C2 amended, witness at `c = 5 + 5i`: the count is `1` for
`max_iter = 2` and `0` for `max_iter = 1`. -/
theorem C2_amended_first_escape_witness :
    mandelbrotPoint 5 5 2 = 1 ∧ mandelbrotPoint 5 5 1 = 0 :=
  ⟨(C2_amended_first_escape 5 5 2 (by norm_num)).1 (by norm_num),
    (C2_amended_first_escape 5 5 1 (by norm_num)).2 rfl⟩

/-- Claim C10: the escape test is evaluated before the first orbit update,
while `z` is still `0`, so no point can escape at `k = 0`: with
`max_iter = 1` every recorded count is `0` regardless of the input point,
and with `max_iter ≥ 2` every recorded count is at least `1`. -/
theorem C10_zero_count_only_at_cap_one (cr ci : ℚ) :
    mandelbrotPoint cr ci 1 = 0 ∧
      ∀ m : ℕ, 2 ≤ m → 1 ≤ mandelbrotPoint cr ci m := by
  constructor
  · norm_num [mandelbrotPoint, mandelGo]
  · intro m hm
    have h0 : ¬ ((0 : ℚ) * 0 + 0 * 0 > 4) := by norm_num
    obtain ⟨fuel, rfl⟩ : ∃ fuel, m = fuel + 2 := ⟨m - 2, by omega⟩
    have step1 : mandelbrotPoint cr ci (fuel + 2) =
        mandelGo cr ci (fuel + 2) (0 * 0 - 0 * 0 + cr) (2 * 0 * 0 + ci) 1
          (fuel + 1) := by
      rw [mandelbrotPoint]
      simp [mandelGo, h0]
    rw [step1]
    rcases mandelGo_range cr ci (fuel + 2) (fuel + 1)
        (0 * 0 - 0 * 0 + cr) (2 * 0 * 0 + ci) 1 with h | ⟨h1, h2⟩
    · rw [h]
      push_cast
      omega
    · exact_mod_cast h1

/-- Claim C10 witness at `c = 0`: count `0` at `max_iter = 1`, and count at
least `1` at `max_iter = 2`. -/
theorem C10_zero_count_only_at_cap_one_witness :
    mandelbrotPoint 0 0 1 = 0 ∧ 1 ≤ mandelbrotPoint 0 0 2 :=
  ⟨(C10_zero_count_only_at_cap_one 0 0).1,
    (C10_zero_count_only_at_cap_one 0 0).2 2 (by norm_num)⟩

/-- Number of tile columns: `tiles_x = (width + tile_size - 1) // tile_size`. -/
def tilesX (w ts : ℕ) : ℕ := (w + ts - 1) / ts

/-- Number of tile rows: `tiles_y = (height + tile_size - 1) // tile_size`. -/
def tilesY (h ts : ℕ) : ℕ := (h + ts - 1) / ts

/-- The tile indices `(ty, tx)` in the order the nested loops of
`render_mandelbrot_tiled` visit them: `ty` outer, `tx` inner. -/
def tilePairs (w h ts : ℕ) : List (ℕ × ℕ) :=
  (List.range (tilesY h ts)).flatMap fun ty =>
    (List.range (tilesX w ts)).map fun tx => (ty, tx)

/-- Value the renderer computes for the pixel at row `i`, column `j`:
the evaluator applied to the meshgrid coordinate
`(x_min + j * x_scale, y_min + i * y_scale)` with
`x_scale = (x_max - x_min) / width` and `y_scale = (y_max - y_min) / height`. -/
def tileValue (w h m : ℕ) (xmin xmax ymin ymax : ℚ) (i j : ℕ) : ℤ :=
  mandelbrotPoint (xmin + (j : ℚ) * ((xmax - xmin) / (w : ℚ)))
    (ymin + (i : ℚ) * ((ymax - ymin) / (h : ℚ))) m

/-- Pixel `(row i, column j)` lies in tile `t = (ty, tx)`: the tile covers
columns `[tx * ts, min (tx * ts + ts) w)` and rows
`[ty * ts, min (ty * ts + ts) h)`, mirroring
`x_start = tx * tile_size`, `x_end = min(x_start + tile_size, width)` and the
corresponding rows. -/
def inTile (w h ts : ℕ) (t : ℕ × ℕ) (i j : ℕ) : Prop :=
  t.2 * ts ≤ j ∧ j < min (t.2 * ts + ts) w ∧
    t.1 * ts ≤ i ∧ i < min (t.1 * ts + ts) h

instance instDecidableInTile (w h ts : ℕ) (t : ℕ × ℕ) (i j : ℕ) :
    Decidable (inTile w h ts t i j) := by
  unfold inTile
  infer_instance

/-- The block assignment `result[y_start:y_end, x_start:x_end] = tile_result`
for tile `t`: cells inside the tile receive the evaluator's value at their
global pixel index, all other cells keep their previous contents. -/
def applyTile (w h m : ℕ) (xmin xmax ymin ymax : ℚ) (ts : ℕ)
    (buf : ℕ → ℕ → ℤ) (t : ℕ × ℕ) : ℕ → ℕ → ℤ :=
  fun i j =>
    if inTile w h ts t i j then tileValue w h m xmin xmax ymin ymax i j
    else buf i j

/-- The Divergence Buffer of `render_mandelbrot_tiled` as a function of
(row, column): start from `np.zeros((height, width))` and process every tile
in loop order. -/
def renderDivergence (w h m : ℕ) (xmin xmax ymin ymax : ℚ) (ts : ℕ) :
    ℕ → ℕ → ℤ :=
  (tilePairs w h ts).foldl (applyTile w h m xmin xmax ymin ymax ts)
    fun _ _ => 0

/-- The Divergence Buffer materialized as a height-by-width array of rows. -/
def divBuffer (w h m : ℕ) (xmin xmax ymin ymax : ℚ) (ts : ℕ) :
    List (List ℤ) :=
  (List.range h).map fun i =>
    (List.range w).map fun j =>
      renderDivergence w h m xmin xmax ymin ymax ts i j

lemma foldl_applyTile_not_mem (w h m : ℕ) (xmin xmax ymin ymax : ℚ)
    (ts : ℕ) :
    ∀ (L : List (ℕ × ℕ)) (buf : ℕ → ℕ → ℤ) (i j : ℕ),
      (∀ t ∈ L, ¬ inTile w h ts t i j) →
      L.foldl (applyTile w h m xmin xmax ymin ymax ts) buf i j = buf i j := by
  intro L
  induction L with
  | nil =>
    intro buf i j _
    rfl
  | cons a L ih =>
    intro buf i j hnone
    rw [List.foldl_cons]
    rw [ih _ i j fun t ht => hnone t (List.mem_cons_of_mem a ht)]
    have ha := hnone a (List.mem_cons_self a L)
    simp [applyTile, ha]

lemma foldl_applyTile_mem (w h m : ℕ) (xmin xmax ymin ymax : ℚ) (ts : ℕ) :
    ∀ (L : List (ℕ × ℕ)) (buf : ℕ → ℕ → ℤ) (i j : ℕ),
      (∃ t ∈ L, inTile w h ts t i j) →
      L.foldl (applyTile w h m xmin xmax ymin ymax ts) buf i j =
        tileValue w h m xmin xmax ymin ymax i j := by
  intro L
  induction L with
  | nil =>
    intro buf i j hex
    simp at hex
  | cons a L ih =>
    intro buf i j hex
    rw [List.foldl_cons]
    by_cases hL : ∃ t ∈ L, inTile w h ts t i j
    · exact ih _ i j hL
    · have hnone : ∀ t ∈ L, ¬ inTile w h ts t i j := by
        push_neg at hL
        exact hL
      have ha : inTile w h ts a i j := by
        rcases hex with ⟨t, ht, hcov⟩
        rcases List.mem_cons.mp ht with rfl | htL
        · exact hcov
        · exact absurd hcov (hnone t htL)
      rw [foldl_applyTile_not_mem w h m xmin xmax ymin ymax ts L _ i j hnone]
      simp [applyTile, ha]

lemma div_lt_ceilDiv (a n ts : ℕ) (hts : 0 < ts) (h : a < n) :
    a / ts < (n + ts - 1) / ts := by
  have h2 : a / ts * ts ≤ a := Nat.div_mul_le_self a ts
  have h1 : a / ts + 1 ≤ (n + ts - 1) / ts := by
    rw [Nat.le_div_iff_mul_le hts, Nat.succ_mul]
    omega
  omega

lemma lt_div_mul_add (a ts : ℕ) (hts : 0 < ts) : a < a / ts * ts + ts := by
  have h1 := Nat.div_add_mod a ts
  have h2 := Nat.mod_lt a hts
  have h3 : ts * (a / ts) = a / ts * ts := Nat.mul_comm _ _
  omega

lemma exists_tile_mem (w h ts : ℕ) (hts : 0 < ts) (i j : ℕ)
    (hi : i < h) (hj : j < w) :
    (i / ts, j / ts) ∈ tilePairs w h ts ∧
      inTile w h ts (i / ts, j / ts) i j := by
  constructor
  · simp only [tilePairs, List.mem_flatMap, List.mem_map, List.mem_range]
    exact ⟨i / ts, div_lt_ceilDiv i h ts hts hi,
      j / ts, div_lt_ceilDiv j w ts hts hj, rfl⟩
  · refine ⟨Nat.div_mul_le_self j ts, lt_min (lt_div_mul_add j ts hts) hj,
      Nat.div_mul_le_self i ts, lt_min (lt_div_mul_add i ts hts) hi⟩

lemma renderDivergence_cell (w h m : ℕ) (xmin xmax ymin ymax : ℚ) (ts : ℕ)
    (hts : 0 < ts) (i j : ℕ) (hi : i < h) (hj : j < w) :
    renderDivergence w h m xmin xmax ymin ymax ts i j =
      tileValue w h m xmin xmax ymin ymax i j := by
  obtain ⟨hmem, hcov⟩ := exists_tile_mem w h ts hts i j hi hj
  exact foldl_applyTile_mem w h m xmin xmax ymin ymax ts
    (tilePairs w h ts) _ i j ⟨_, hmem, hcov⟩

/-- Claim C4 counterexample: `render_mandelbrot_tiled` performs no input
validation.  With the inverted viewport `x_min = 1 ≥ x_max = 0` and
`y_min = 1 ≥ y_max = 0` (a 1-by-1 raster, `max_iter = 1`, `tile_size = 1`),
the call is not rejected: it proceeds through the full computation and
produces the Divergence Buffer `[[0]]`. -/
theorem C4_counterexample :
    divBuffer 1 1 1 1 0 1 0 1 = [[0]] := by
  norm_num [divBuffer, renderDivergence, tilePairs, tilesX, tilesY,
    applyTile, inTile, tileValue, mandelbrotPoint, mandelGo,
    List.range_succ]

/-- Claim C4, amended: the render operation performs no eager validation at
all.  For every input — including inverted viewport bounds
(`x_min ≥ x_max` or `y_min ≥ y_max`) and any `max_iter` — the computation
proceeds and returns a Divergence Buffer of shape height-by-width rather
than rejecting the call. -/
theorem C4_amended_no_validation (w h m : ℕ) (xmin xmax ymin ymax : ℚ)
    (ts : ℕ) :
    (divBuffer w h m xmin xmax ymin ymax ts).length = h ∧
      ∀ row ∈ divBuffer w h m xmin xmax ymin ymax ts, row.length = w := by
  constructor
  · simp [divBuffer]
  · intro row hrow
    simp only [divBuffer, List.mem_map, List.mem_range] at hrow
    obtain ⟨i, _, rfl⟩ := hrow
    simp

/-- Claim C5: tile-size invariance.  For every valid resolution and
viewport, rendering with the single tile of size `max width height` yields a
Divergence Buffer identical, cell for cell, to rendering with any other
positive `tile_size`, whether or not it divides the raster evenly. -/
theorem C5_tile_size_invariance (w h m : ℕ) (xmin xmax ymin ymax : ℚ)
    (ts : ℕ) (hw : 0 < w) (hh : 0 < h) (hts : 0 < ts) :
    divBuffer w h m xmin xmax ymin ymax (max w h) =
      divBuffer w h m xmin xmax ymin ymax ts := by
  unfold divBuffer
  refine List.map_congr_left fun i hi => ?_
  refine List.map_congr_left fun j hj => ?_
  rw [List.mem_range] at hi hj
  have hmax : 0 < max w h := lt_of_lt_of_le hw (le_max_left w h)
  rw [renderDivergence_cell w h m xmin xmax ymin ymax (max w h) hmax i j hi hj,
    renderDivergence_cell w h m xmin xmax ymin ymax ts hts i j hi hj]

/-- Claim C5 witness: a 3-by-2 raster rendered with the single tile of size
`max 3 2` equals the same render with `tile_size = 2`, which partitions the
raster unevenly. -/
theorem C5_tile_size_invariance_witness :
    divBuffer 3 2 1 0 1 0 1 (max 3 2) = divBuffer 3 2 1 0 1 0 1 2 :=
  C5_tile_size_invariance 3 2 1 0 1 0 1 2 (by norm_num) (by norm_num)
    (by norm_num)

/-- Claim C6: coordinate mapping.  For every raster of width `w` and height
`h`, every viewport and every positive tile size, the value the tiled
renderer stores at pixel (row `i`, column `j`) — for every pixel of every
tile — is the evaluator applied at the global-index coordinates
`x_min + j * (x_max − x_min) / w` and `y_min + i * (y_max − y_min) / h`. -/
theorem C6_coordinate_mapping (w h m : ℕ) (xmin xmax ymin ymax : ℚ)
    (ts i j : ℕ) (hts : 0 < ts) (hi : i < h) (hj : j < w) :
    renderDivergence w h m xmin xmax ymin ymax ts i j =
      mandelbrotPoint (xmin + (j : ℚ) * (xmax - xmin) / (w : ℚ))
        (ymin + (i : ℚ) * (ymax - ymin) / (h : ℚ)) m := by
  rw [renderDivergence_cell w h m xmin xmax ymin ymax ts hts i j hi hj,
    tileValue, mul_div_assoc, mul_div_assoc]

/-- Claim C6 witness: pixel (row 1, column 2) of a 3-by-2 render with
`tile_size = 2` is the evaluator's value at the mapped coordinates. -/
theorem C6_coordinate_mapping_witness :
    renderDivergence 3 2 1 0 1 0 1 2 1 2 =
      mandelbrotPoint (0 + (2 : ℚ) * (1 - 0) / (3 : ℚ))
        (0 + (1 : ℚ) * (1 - 0) / (2 : ℚ)) 1 :=
  C6_coordinate_mapping 3 2 1 0 1 0 1 2 1 2 (by norm_num) (by norm_num)
    (by norm_num)

lemma inTile_eq_div (w h ts : ℕ) (t : ℕ × ℕ) (i j : ℕ)
    (hcov : inTile w h ts t i j) : t = (i / ts, j / ts) := by
  obtain ⟨hj1, hj2, hi1, hi2⟩ := hcov
  have hj2' : j < t.2 * ts + ts := lt_of_lt_of_le hj2 (min_le_left _ _)
  have hi2' : i < t.1 * ts + ts := lt_of_lt_of_le hi2 (min_le_left _ _)
  have e1 : i / ts = t.1 := by
    apply Nat.div_eq_of_lt_le hi1
    rw [Nat.succ_mul]
    exact hi2'
  have e2 : j / ts = t.2 := by
    apply Nat.div_eq_of_lt_le hj1
    rw [Nat.succ_mul]
    exact hj2'
  obtain ⟨ty, tx⟩ := t
  simp only at e1 e2
  rw [Prod.mk.injEq]
  exact ⟨e1.symm, e2.symm⟩

/-- Claim C7: the ceiling-division tile grid partitions the raster exactly.
Every pixel (row `y`, column `x`) of the width-by-height rectangle lies in
exactly one tile `(ty, tx)` of the `tilesY × tilesX` grid — no overlaps, no
gaps. -/
theorem C7_tiles_partition_raster (w h ts x y : ℕ) (hts : 0 < ts)
    (hx : x < w) (hy : y < h) :
    ∃! t : ℕ × ℕ, t.1 < tilesY h ts ∧ t.2 < tilesX w ts ∧
      inTile w h ts t y x := by
  obtain ⟨hmem, hcov⟩ := exists_tile_mem w h ts hts y x hy hx
  refine ⟨(y / ts, x / ts), ⟨?_, ?_, hcov⟩, ?_⟩
  · exact div_lt_ceilDiv y h ts hts hy
  · exact div_lt_ceilDiv x w ts hts hx
  · intro t ht
    exact inTile_eq_div w h ts t y x ht.2.2

/-- Claim C7 witness: on a 3-by-3 raster with `tile_size = 2`, the pixel at
column 2, row 1 lies in exactly one tile. -/
theorem C7_tiles_partition_raster_witness :
    ∃! t : ℕ × ℕ, t.1 < tilesY 3 2 ∧ t.2 < tilesX 3 2 ∧
      inTile 3 3 2 t 1 2 :=
  C7_tiles_partition_raster 3 3 2 2 1 (by norm_num) (by norm_num)
    (by norm_num)

/-- Claim C8: bounded counts.  For every configuration (any viewport, any
positive `max_iter` and `tile_size`) and every cell of the Divergence
Buffer, the recorded count satisfies `0 ≤ count ≤ max_iter − 1`. -/
theorem C8_counts_bounded (w h m : ℕ) (xmin xmax ymin ymax : ℚ)
    (ts i j : ℕ) (hm : 1 ≤ m) (hts : 0 < ts) (hi : i < h) (hj : j < w) :
    0 ≤ renderDivergence w h m xmin xmax ymin ymax ts i j ∧
      renderDivergence w h m xmin xmax ymin ymax ts i j ≤ (m : ℤ) - 1 := by
  rw [renderDivergence_cell w h m xmin xmax ymin ymax ts hts i j hi hj]
  exact mandelbrotPoint_bounds _ _ m hm

/-- Claim C8 witness: the count at pixel (row 1, column 2) of a 3-by-2
render with `max_iter = 4` lies between `0` and `3`. -/
theorem C8_counts_bounded_witness :
    0 ≤ renderDivergence 3 2 4 0 1 0 1 2 1 2 ∧
      renderDivergence 3 2 4 0 1 0 1 2 1 2 ≤ (4 : ℤ) - 1 :=
  C8_counts_bounded 3 2 4 0 1 0 1 2 1 2 (by norm_num) (by norm_num)
    (by norm_num) (by norm_num)

/-- The log-scaling step `np.log(result + 1)` applied to one count,
modelled over the reals. -/
noncomputable def logCount (c : ℤ) : ℝ := Real.log ((c : ℝ) + 1)

/-- The normalization divisor `np.max(mandelbrot_set)`: the maximum of the
log-scaled buffer (counts from a render are nonnegative, so their logs are
nonnegative and the fold base `0` never exceeds the true maximum of a
nonempty buffer). -/
noncomputable def bufMax (buf : List ℤ) : ℝ := (buf.map logCount).foldr max 0

/-- The post-processed 8-bit intensity of one cell holding count `c` in a
buffer `buf`: `np.uint8(np.log(c + 1) / np.max(np.log(buf + 1)) * 255)`,
the float-to-uint8 conversion modelled as floor followed by reduction mod
256. -/
noncomputable def intensity (buf : List ℤ) (c : ℤ) : ℤ :=
  ⌊logCount c / bufMax buf * 255⌋ % 256

/-- The Output Image of `render_mandelbrot_tiled`: the Divergence Buffer with
every cell post-processed against the whole buffer's maximum. -/
noncomputable def renderImage (w h m : ℕ) (xmin xmax ymin ymax : ℚ)
    (ts : ℕ) : List (List ℤ) :=
  (divBuffer w h m xmin xmax ymin ymax ts).map fun row =>
    row.map fun c =>
      intensity (divBuffer w h m xmin xmax ymin ymax ts).flatten c

lemma bufMax_nonneg (buf : List ℤ) : 0 ≤ bufMax buf := by
  induction buf with
  | nil => simp [bufMax]
  | cons a l ih =>
    simp only [bufMax, List.map_cons, List.foldr_cons]
    exact le_trans ih (le_max_right _ _)

lemma le_bufMax (buf : List ℤ) (c : ℤ) (hc : c ∈ buf) :
    logCount c ≤ bufMax buf := by
  induction buf with
  | nil => simp at hc
  | cons a l ih =>
    simp only [bufMax, List.map_cons, List.foldr_cons]
    rcases List.mem_cons.mp hc with rfl | hl
    · exact le_max_left _ _
    · exact le_trans (ih hl) (le_max_right _ _)

lemma logCount_nonneg (c : ℤ) (hc : 0 ≤ c) : 0 ≤ logCount c := by
  apply Real.log_nonneg
  have : (0 : ℝ) ≤ (c : ℝ) := by exact_mod_cast hc
  linarith

lemma logCount_mono (a b : ℤ) (hb : 0 ≤ b) (h : b ≤ a) :
    logCount b ≤ logCount a := by
  apply Real.log_le_log
  · have : (0 : ℝ) ≤ (b : ℝ) := by exact_mod_cast hb
    linarith
  · have : (b : ℝ) ≤ (a : ℝ) := by exact_mod_cast h
    linarith

/-- Claim C9: the post-processing transform (elementwise `log(count + 1)`,
division by the buffer's global maximum, scaling to `[0, 255]`, 8-bit
conversion) is monotonic: for cells `a` and `b` of the same Divergence
Buffer with `count_b ≤ count_a`, the output intensity of `b` is at most the
output intensity of `a`. -/
theorem C9_postprocessing_monotone (buf : List ℤ) (a b : ℤ)
    (ha : a ∈ buf) (hb : b ∈ buf) (hb0 : 0 ≤ b) (hba : b ≤ a) :
    intensity buf b ≤ intensity buf a := by
  have h0b : 0 ≤ logCount b := logCount_nonneg b hb0
  have hmono : logCount b ≤ logCount a := logCount_mono a b hb0 hba
  have hma : logCount a ≤ bufMax buf := le_bufMax buf a ha
  have hM0 : 0 ≤ bufMax buf := bufMax_nonneg buf
  rcases eq_or_lt_of_le hM0 with hM | hM
  · unfold intensity
    rw [← hM, div_zero, div_zero]
  · have h1 : logCount b / bufMax buf * 255 ≤
        logCount a / bufMax buf * 255 := by
      apply mul_le_mul_of_nonneg_right _ (by norm_num)
      exact div_le_div_of_nonneg_right hmono (le_of_lt hM)
    have hratio : logCount a / bufMax buf ≤ 1 := (div_le_one hM).mpr hma
    have hub : logCount a / bufMax buf * 255 ≤ 255 := by nlinarith
    have hlb : 0 ≤ logCount b / bufMax buf * 255 := by positivity
    have hfb : 0 ≤ ⌊logCount b / bufMax buf * 255⌋ := by
      exact Int.floor_nonneg.mpr hlb
    have hfa0 : 0 ≤ ⌊logCount a / bufMax buf * 255⌋ := by
      exact Int.floor_nonneg.mpr (le_trans hlb h1)
    have hfa : ⌊logCount a / bufMax buf * 255⌋ ≤ 255 := by
      have h2 := Int.floor_mono hub
      have h3 : ⌊(255 : ℝ)⌋ = 255 := by norm_num
      omega
    have hfb' : ⌊logCount b / bufMax buf * 255⌋ ≤ 255 := by
      have h2 := Int.floor_mono h1
      omega
    unfold intensity
    rw [Int.emod_eq_of_lt hfb (by omega), Int.emod_eq_of_lt hfa0 (by omega)]
    exact Int.floor_mono h1

/-- Claim C9 witness: in the buffer `[0, 3]`, the intensity of the cell with
count `0` is at most the intensity of the cell with count `3`. -/
theorem C9_postprocessing_monotone_witness :
    intensity [0, 3] 0 ≤ intensity [0, 3] 3 :=
  C9_postprocessing_monotone [0, 3] 3 0 (by simp) (by simp) le_rfl
    (by norm_num)

lemma bufMax_of_all_eq (buf : List ℤ) (v : ℤ) (hv : 0 ≤ logCount v)
    (huni : ∀ c ∈ buf, c = v) (hne : buf ≠ []) : bufMax buf = logCount v := by
  induction buf with
  | nil => exact absurd rfl hne
  | cons a l ih =>
    have ha : a = v := huni a (List.mem_cons_self a l)
    subst ha
    by_cases hl : l = []
    · subst hl
      simp only [bufMax, List.map_cons, List.map_nil, List.foldr_cons,
        List.foldr_nil]
      exact max_eq_left hv
    · have hrec : bufMax l = logCount a :=
        ih (fun c hc => huni c (List.mem_cons_of_mem a hc)) hl
      simp only [bufMax, List.map_cons, List.foldr_cons] at hrec ⊢
      rw [hrec, max_self]

lemma logCount_cap (m : ℕ) : logCount ((m : ℤ) - 1) = Real.log (m : ℝ) := by
  rw [logCount]
  norm_num

/-- Claim C3 counterexample: take the spec's own example of a viewport
entirely inside the main cardioid, `x ∈ [-0.6, -0.4]`, `y ∈ [-0.1, 0.1]`,
rendered at 1-by-1 resolution with `max_iter = 2` and `tile_size = 1`.  The
Divergence Buffer is uniformly `max_iter - 1 = 1` as claimed, but the
post-processor outputs the uniformly *white* image `[[255]]` — the
normalized intensity of the maximal count is `255`, not `0` — so the output
is not the claimed all-black image. -/
theorem C3_counterexample :
    renderImage 1 1 2 (-3/5) (-2/5) (-1/10) (1/10) 1 = [[255]] ∧
      (255 : ℤ) ≠ 0 := by
  constructor
  · have hbuf : divBuffer 1 1 2 (-3/5) (-2/5) (-1/10) (1/10) 1 = [[1]] := by
      norm_num [divBuffer, renderDivergence, tilePairs, tilesX, tilesY,
        applyTile, inTile, tileValue, mandelbrotPoint, mandelGo,
        List.range_succ]
    rw [renderImage, hbuf]
    have hflat : ([[1]] : List (List ℤ)).flatten = [1] := by rfl
    rw [hflat]
    have hlog2 : logCount 1 = Real.log 2 := by
      rw [logCount]
      norm_num
    have hpos : 0 < Real.log 2 := Real.log_pos (by norm_num)
    have hM : bufMax [1] = Real.log 2 := by
      rw [bufMax_of_all_eq [1] 1 (by rw [hlog2]; exact le_of_lt hpos)
        (by intro c hc; simpa using hc) (by simp), hlog2]
    have hval : intensity [1] 1 = 255 := by
      rw [intensity, hM, hlog2, div_self (ne_of_gt hpos)]
      norm_num
    simp [hval]
  · norm_num

/-- Claim C3, amended: a render whose Divergence Buffer is uniformly
`max_iter − 1` with `max_iter ≥ 2` (as for a viewport inside the main
cardioid) is post-processed with the strictly positive normalization divisor
`log(max_iter)` — no division by zero — and the output image is uniformly
*white* (every intensity is `255`), not black; only for `max_iter = 1` are
all counts `0`, and then the divisor is `0` and the code divides by it with
no special-casing (in this real-number model the division yields `0`). -/
theorem C3_amended_uniform_render_is_white (buf : List ℤ) (m : ℕ)
    (hm : 2 ≤ m) (huni : ∀ c ∈ buf, c = (m : ℤ) - 1) :
    (buf ≠ [] → 0 < bufMax buf) ∧ ∀ c ∈ buf, intensity buf c = 255 := by
  have hpos : 0 < Real.log (m : ℝ) := by
    apply Real.log_pos
    have : (2 : ℝ) ≤ (m : ℝ) := by exact_mod_cast hm
    linarith
  have hv : 0 ≤ logCount ((m : ℤ) - 1) := by
    rw [logCount_cap]
    exact le_of_lt hpos
  constructor
  · intro hne
    rw [bufMax_of_all_eq buf ((m : ℤ) - 1) hv huni hne, logCount_cap]
    exact hpos
  · intro c hc
    have hne : buf ≠ [] := by
      intro hemp
      rw [hemp] at hc
      simp at hc
    have hc' : c = (m : ℤ) - 1 := huni c hc
    subst hc'
    rw [intensity, bufMax_of_all_eq buf ((m : ℤ) - 1) hv huni hne,
      logCount_cap, div_self (ne_of_gt hpos)]
    norm_num

/-- Claim C3 amended, witness: the uniform buffer `[1, 1]` arising from a
degenerate all-bounded render with `max_iter = 2` post-processes to
intensity `255` everywhere. -/
theorem C3_amended_uniform_render_is_white_witness :
    intensity [1, 1] 1 = 255 :=
  (C3_amended_uniform_render_is_white [1, 1] 2 (by norm_num)
    (by intro c hc; simpa using hc)).2 1 (by simp)
